import Mathlib

/-!
Shallow embedding of the MicroPaper settlement and risk engine
(python-service): the yield calculator (app/utils/yield_calculator.py), the
risk waterfall (app/services/risk_engine.py), order creation, order
matching and note settlement (app/routes/market.py), and the compliance
gate (app/utils/compliance_checks.py).

All money amounts are integers in minor units, as in the source.  Python
`decimal.Decimal` values are modelled exactly as integer fractions, with
every arithmetic operation followed by rounding to the default context
(28 significant digits, `ROUND_HALF_EVEN`), which is precisely what the
`decimal` module does.  Binary floating point appears in the source only
in `float(...)` conversions and `int(a / b)` truncations whose values, at
every point where a theorem below evaluates them, coincide with the exact
rational results; the doc comments of the definitions concerned say so.
-/

namespace MicroPaper

/-- Number of decimal digits of `n` (0 for 0).  Structural fuel `n + 1`
always suffices because `n / 10` strictly decreases. -/
def digitCountAux : Nat → Nat → Nat
  | 0, _ => 0
  | f + 1, n => if n = 0 then 0 else 1 + digitCountAux f (n / 10)

def digitCount (n : Nat) : Nat := digitCountAux (n + 1) n

/-- A Python `decimal.Decimal` value, represented exactly as the fraction
`n / d`.  All constructors in this file keep `d` positive. -/
structure Dec where
  n : Int
  d : Int
  deriving DecidableEq, Repr

namespace Dec

/-- The rational value of a `Dec`. -/
def toRat (x : Dec) : ℚ := (x.n : ℚ) / (x.d : ℚ)

def ofInt (k : Int) : Dec := ⟨k, 1⟩

/-- Nearest integer to `a / b` for `b > 0`, ties to even: the
`ROUND_HALF_EVEN` rounding that is the default of Python `decimal`. -/
def roundHalfEvenFrac (a b : Int) : Int :=
  let f := Int.fdiv a b
  let r := a - f * b
  if 2 * r < b then f
  else if b < 2 * r then f + 1
  else if f % 2 = 0 then f else f + 1

/-- The adjusted decimal exponent of `a / b` for `a, b > 0`: the unique
`e` with `10 ^ e ≤ a / b < 10 ^ (e + 1)`. -/
def decExpFrac (a b : Int) : Int :=
  let nn := a.toNat
  let dd := b.toNat
  let c : Int := (digitCount nn : Int) - (digitCount dd : Int)
  if (if 0 ≤ c then dd * 10 ^ c.toNat ≤ nn else dd ≤ nn * 10 ^ (-c).toNat) then c else c - 1

/-- Round a value to 28 significant decimal digits, half-even: the result
coefficient of every `decimal` operation under the default context
(`getcontext().prec = 28`, `ROUND_HALF_EVEN`).  The identity whenever the
exact value needs at most 28 significant digits.  Expects `x.d > 0`. -/
def round28 (x : Dec) : Dec :=
  if x.n = 0 then ⟨0, 1⟩
  else
    let sgn : Int := if 0 ≤ x.n then 1 else -1
    let a := sgn * x.n
    let e := decExpFrac a x.d
    let s : Int := 27 - e
    if 0 ≤ s then ⟨sgn * roundHalfEvenFrac (a * 10 ^ s.toNat) x.d, 10 ^ s.toNat⟩
    else ⟨sgn * roundHalfEvenFrac a (x.d * 10 ^ (-s).toNat) * 10 ^ (-s).toNat, 1⟩

/-- Exact sum followed by context rounding: Python `Decimal.__add__`. -/
def add (x y : Dec) : Dec := round28 ⟨x.n * y.d + y.n * x.d, x.d * y.d⟩

/-- Exact difference followed by context rounding: Python `Decimal.__sub__`. -/
def sub (x y : Dec) : Dec := round28 ⟨x.n * y.d - y.n * x.d, x.d * y.d⟩

/-- Exact product followed by context rounding: Python `Decimal.__mul__`. -/
def mul (x y : Dec) : Dec := round28 ⟨x.n * y.n, x.d * y.d⟩

/-- Exact quotient followed by context rounding (correctly rounded
division): Python `Decimal.__truediv__`. -/
def div (x y : Dec) : Dec :=
  let nn := x.n * y.d
  let dd := x.d * y.n
  round28 (if dd < 0 then ⟨-nn, -dd⟩ else ⟨nn, dd⟩)

end Dec

/-! ### YieldCalculator (app/utils/yield_calculator.py) -/

/-- The Decimal `rate_decimal = Decimal(interest_rate_bps) / Decimal(10000)`
of `YieldCalculator.calculate_maturity_value`. -/
def mvRate (interest_rate_bps : Int) : Dec :=
  Dec.div (Dec.ofInt interest_rate_bps) (Dec.ofInt 10000)

/-- The Decimal `days_decimal = Decimal(days_to_maturity) / Decimal(360)`. -/
def mvDays (days_to_maturity : Int) : Dec :=
  Dec.div (Dec.ofInt days_to_maturity) (Dec.ofInt 360)

/-- The first product `Decimal(principal_cents) * rate_decimal`. -/
def mvPrincipalRate (principal_cents interest_rate_bps : Int) : Dec :=
  Dec.mul (Dec.ofInt principal_cents) (mvRate interest_rate_bps)

/-- The Decimal `interest_cents = Decimal(principal) * rate_decimal * days_decimal`
(left associated, each operation context rounded). -/
def mvInterest (principal_cents interest_rate_bps days_to_maturity : Int) : Dec :=
  Dec.mul (mvPrincipalRate principal_cents interest_rate_bps) (mvDays days_to_maturity)

/-- The Decimal `maturity_value = Decimal(principal_cents) + interest_cents`. -/
def mvSum (principal_cents interest_rate_bps days_to_maturity : Int) : Dec :=
  Dec.add (Dec.ofInt principal_cents) (mvInterest principal_cents interest_rate_bps days_to_maturity)

/-- Python `int(x.quantize(Decimal(1), rounding=ROUND_DOWN))`: truncation
toward zero (`Int.tdiv` has exactly that convention), raising
`InvalidOperation` when the result would need more than the 28 coefficient
digits the context allows. -/
def quantizeDown (x : Dec) : Except String Int :=
  let t := Int.tdiv x.n x.d
  if t.natAbs < 10 ^ 28 then .ok t else .error "InvalidOperation"

instance {ε α : Type} [DecidableEq ε] [DecidableEq α] : DecidableEq (Except ε α) := fun x y =>
  match x, y with
  | .ok a, .ok b => if h : a = b then isTrue (by rw [h]) else isFalse (by simp [h])
  | .error a, .error b => if h : a = b then isTrue (by rw [h]) else isFalse (by simp [h])
  | .ok _, .error _ => isFalse (by simp)
  | .error _, .ok _ => isFalse (by simp)

/-- Model of `YieldCalculator.calculate_maturity_value`, line for line:
guard clauses, then the default-context Decimal computation. -/
def calculate_maturity_value (principal_cents interest_rate_bps days_to_maturity : Int) :
    Except String Int :=
  if principal_cents ≤ 0 then .ok 0
  else if interest_rate_bps < 0 then .error "Interest rate cannot be negative"
  else if days_to_maturity < 0 then .error "Days to maturity cannot be negative"
  else quantizeDown (mvSum principal_cents interest_rate_bps days_to_maturity)

/-- Python `round(float(x), 2)` modelled on the exact value of `x`: round
half-even to 2 decimal places.  The `float` conversion perturbs the value
by less than one part in `2 ^ 52`, which cannot change this rounding
unless the exact value lies within that distance of a half-cent midpoint;
no value this file evaluates does.  Expects `x.d > 0`. -/
def pyRound2 (x : Dec) : Dec :=
  ⟨Dec.roundHalfEvenFrac (x.n * 100) x.d, 100⟩

/-- Model of `YieldCalculator.calculate_apy`: degenerate-case guards, then
the default-context Decimal chain and the final 2-decimal rounding. -/
def calculate_apy (principal_cents maturity_value_cents days_to_maturity : Int) : Dec :=
  if principal_cents ≤ 0 then ⟨0, 1⟩
  else if days_to_maturity ≤ 0 then ⟨0, 1⟩
  else
    let return_ratio := Dec.div (Dec.ofInt maturity_value_cents) (Dec.ofInt principal_cents)
    let annualized_return :=
      Dec.mul (Dec.sub return_ratio (Dec.ofInt 1))
        (Dec.div (Dec.ofInt 365) (Dec.ofInt days_to_maturity))
    pyRound2 (Dec.mul annualized_return (Dec.ofInt 100))

/-- The specification formula: principal plus the exact rational simple
interest `principal * rate_bps * days / 3600000` rounded down
(`Int.fdiv` is floor division). -/
def exactMaturityValue (principal_cents interest_rate_bps days_to_maturity : Int) : Int :=
  principal_cents + Int.fdiv (principal_cents * interest_rate_bps * days_to_maturity) 3600000

/-! ### ComplianceGate (app/utils/compliance_checks.py) -/

/-- Python truthiness of an optional string: `None` and the empty string
are falsy. -/
def pyTruthy : Option String → Bool
  | none => false
  | some s => if s = "" then false else true

def strLower (s : String) : String := s.map Char.toLower

def strUpper (s : String) : String := s.map Char.toUpper

/-- Model of `validate_investment_eligibility`: falsy tier or jurisdiction
defaults to eligible; otherwise ineligible exactly for upper-cased
jurisdiction `US` together with lower-cased tier `retail`. -/
def validate_investment_eligibility (wallet_tier wallet_jurisdiction : Option String) : Bool :=
  if ¬pyTruthy wallet_tier ∨ ¬pyTruthy wallet_jurisdiction then true
  else
    match wallet_tier, wallet_jurisdiction with
    | some t, some j => if strUpper j = "US" ∧ strLower t = "retail" then false else true
    | _, _ => true

/-! ### Data model (app/models/database.py) -/

inductive Side
  | buy
  | sell
  deriving DecidableEq, Repr

inductive OrderStatus
  | pending
  | filled
  | cancelled
  | rejected
  deriving DecidableEq, Repr

/-- Offering status of a note; `offeringOpen` stands for the string value
`open` of `OfferingStatusEnum` (`open` is a Lean keyword). -/
inductive OfferingStatus
  | offeringOpen
  | closed
  | settled
  deriving DecidableEq, Repr

structure Note where
  id : Nat
  amount : Int
  min_subscription_amount : Int
  offering_status : OfferingStatus
  deriving DecidableEq, Repr

structure Order where
  id : Nat
  investor_wallet : String
  note_id : Nat
  amount : Int
  side : Side
  price : Option Int
  status : OrderStatus
  created_at : Nat
  filled_at : Option Nat
  deriving DecidableEq, Repr

/-- An `InvestorHolding` row (one lot).  The global holdings list is kept
in ascending `acquired_at` order, matching the `ORDER BY acquired_at`
queries of the source; new lots are appended at the end. -/
structure Holding where
  wallet_address : String
  note_id : Nat
  quantity_held : Int
  acquisition_price : Int
  acquired_at : Nat
  deriving DecidableEq, Repr

structure Trade where
  buyer_wallet : String
  seller_wallet : String
  note_id : Nat
  quantity : Int
  price : Int
  buy_order_id : Nat
  sell_order_id : Nat
  timestamp : Nat
  deriving DecidableEq, Repr

structure Wallet where
  wallet_address : String
  is_verified : Bool
  investor_tier : Option String
  jurisdiction : Option String
  deriving DecidableEq, Repr

/-! ### RiskEngine (app/services/risk_engine.py) -/

/-- A `CollateralAsset` row restricted to the fields the risk engine
reads; `active` is `status == 'active'`. -/
structure CollateralAsset where
  valuation_cents : Int
  active : Bool
  deriving DecidableEq, Repr

/-- A `Guarantee` row restricted to the fields the risk engine reads;
`active` is `enforcement_status == 'active'`. -/
structure Guarantee where
  coverage_percent : Int
  active : Bool
  deriving DecidableEq, Repr

def collateralCoverage (cs : List CollateralAsset) : Int :=
  ((cs.filter (·.active)).map (·.valuation_cents)).sum

/-- The loop `guarantee_coverage += int(face_value * guarantee.coverage_percent / 100)`
over active guarantees.  Python `int(a / 100)` truncates toward zero the
correctly rounded binary quotient, which equals `Int.tdiv a 100` exactly
whenever `|a| ≤ 2 ^ 53` (the quotient error is then below one half of the
0.01 gap between candidate truncation points). -/
def guaranteeCoverageRaw (face_value : Int) (gs : List Guarantee) : Int :=
  ((gs.filter (·.active)).map (fun g => Int.tdiv (face_value * g.coverage_percent) 100)).sum

/-- `guarantee_coverage = min(guarantee_coverage, face_value)` after the loop. -/
def guaranteeCoverage (face_value : Int) (gs : List Guarantee) : Int :=
  min (guaranteeCoverageRaw face_value gs) face_value

def insuranceClaim (ins : List Int) : Int := ins.sum

structure RiskBreakdown where
  face_value : Int
  collateral_coverage : Int
  guarantee_coverage : Int
  insurance_pool_claim : Int
  uncovered_exposure : Int
  protection_percent : Dec
  deriving DecidableEq, Repr

/-- Model of `RiskEngine.calculate_protection_waterfall` for a note that
exists (the route maps a missing note to 404 before this logic runs).
`protection_percent` is `round(protected_amount / face_value * 100, 2)`;
the binary quotient perturbs the exact value by less than one part in
`2 ^ 52`, which cannot change the 2-decimal rounding at the values any
theorem below evaluates. -/
def calculate_protection_waterfall (note_amount : Int) (cs : List CollateralAsset)
    (gs : List Guarantee) (ins : List Int) : RiskBreakdown :=
  let face_value := note_amount
  let cc := collateralCoverage cs
  let gc := guaranteeCoverage face_value gs
  let ic := insuranceClaim ins
  let remaining_after_collateral := max 0 (face_value - cc)
  let remaining_after_guarantees := max 0 (remaining_after_collateral - gc)
  let uncovered := max 0 (remaining_after_guarantees - ic)
  let protected_amount := face_value - uncovered
  { face_value := face_value
    collateral_coverage := cc
    guarantee_coverage := gc
    insurance_pool_claim := ic
    uncovered_exposure := uncovered
    protection_percent :=
      if 0 < face_value then ⟨Dec.roundHalfEvenFrac (protected_amount * 10000) face_value, 100⟩
      else ⟨0, 1⟩ }

/-! ### Note settlement (settle_note, app/routes/market.py lines 366-496) -/

/-- The two failure modes of `settle_note` after the note has been found:
`alreadySettled` is the HTTP 400 `Note is already settled` response (the
Conflict of the specification), `insufficientSubscription` the HTTP 400
`Note is not fully subscribed` response. -/
inductive SettleError
  | alreadySettled
  | insufficientSubscription
  deriving DecidableEq, Repr

structure SettleResult where
  note : Note
  orders : List Order
  holdings : List Holding
  total_subscribed : Int
  orders_filled : Nat
  holdings_created : Nat
  deriving DecidableEq, Repr

/-- The per-order status update of the settlement loop: every order of the
note that is PENDING becomes FILLED with `filled_at = now`. -/
def settleFill (now : Nat) (nid : Nat) (o : Order) : Order :=
  if o.note_id = nid ∧ o.status = .pending then { o with status := .filled, filled_at := some now }
  else o

/-- The holding created for one settled order: one lot of `order.amount`
units at the fixed par acquisition price of 10000 minor units. -/
def mkSettleHolding (nid : Nat) (now : Nat) (o : Order) : Holding :=
  { wallet_address := o.investor_wallet
    note_id := nid
    quantity_held := o.amount
    acquisition_price := 10000
    acquired_at := now }

/-- Model of `settle_note` for a note that exists.  The source selects the
pending orders of the note with no side filter, sums their amounts,
rejects when the sum is below the note amount, and otherwise fills every
pending order in full; all changes commit atomically (an error mutates
nothing, hence the `Except`). -/
def settle_note (note : Note) (orders : List Order) (holdings : List Holding) (now : Nat) :
    Except SettleError SettleResult :=
  if note.offering_status = .settled then .error .alreadySettled
  else
    let pending := orders.filter (fun o => o.note_id = note.id ∧ o.status = .pending)
    let total_subscribed := (pending.map (·.amount)).sum
    if total_subscribed < note.amount then .error .insufficientSubscription
    else
      .ok
        { note := { note with offering_status := .settled }
          orders := orders.map (settleFill now note.id)
          holdings := holdings ++ pending.map (mkSettleHolding note.id now)
          total_subscribed := total_subscribed
          orders_filled := pending.length
          holdings_created := pending.length }

/-! ### Order creation (create_order, app/routes/market.py lines 176-341) -/

/-- Failure modes of the order-creation route after the wallet header is
present: `attributeError` is the HTTP 500 produced when an undeclared
request attribute is read outside the `try` block (the fate of every
request, see `create_order`); `validationError` covers the HTTP 400
request rejections written in the route body (invalid side, amount below
or not a multiple of the minimum subscription, insufficient holdings),
`noteNotFound` the 404, `forbidden` the 403 KYC and compliance
rejections, `internalError` the 500 raised by `amount % 0`
(ZeroDivisionError) when `min_subscription_amount` is 0. -/
inductive CreateOrderError
  | attributeError
  | validationError
  | noteNotFound
  | forbidden
  | internalError
  deriving DecidableEq, Repr

/-- The pydantic `OrderCreate` request model (schemas.py lines 252-258).
It declares exactly two fields, `note_id` and `amount`, with no
constraint on `amount`; it declares no `side` and no `price` field, and
pydantic drops undeclared fields of the request payload. -/
structure OrderCreate where
  note_id : Nat
  amount : Int
  deriving DecidableEq, Repr

/-- Python attribute lookup of `side` on an `OrderCreate` instance: the
model declares no such field (and pydantic has dropped any `side` key the
payload carried), so the lookup finds nothing for every request - in
Python, an AttributeError. -/
def orderCreateSide (_req : OrderCreate) : Option String := none

/-- Python attribute lookup of `price` on an `OrderCreate` instance:
like `side`, not a declared field, so the lookup finds nothing for every
request. -/
def orderCreatePrice (_req : OrderCreate) : Option (Option Int) := none

/-- Sum of `quantity_held` over the holdings of one wallet for one note:
the `func.sum` query of the sell-order validation. -/
def walletHoldingsTotal (w : String) (nid : Nat) (hs : List Holding) : Int :=
  ((hs.filter (fun h => h.wallet_address = w ∧ h.note_id = nid)).map (·.quantity_held)).sum

/-- The validation and creation logic of the route as written from the
side-validity check (market.py line 216) onward, parameterized by the
values of the `side` attribute read at line 216 and of the `price`
attribute read at line 302.  `price_attr` models the latter lookup: the
source reads `order_data.price` only when constructing the order, inside
the `try` block, so a failed lookup there becomes the generic-handler
HTTP 500 (`internalError`).  With the actual schema both lookups fail
and this function is UNREACHABLE (see `create_order`); it is kept as a
translation of the dead source text.  Note that even as written it never
checks amount positivity on the sell path or on buys of a non-open
note. -/
def createOrderChecks (investor_wallet : String) (side : String) (note_id : Nat) (amount : Int)
    (price_attr : Option (Option Int)) (notes : List Note) (wallets : List Wallet)
    (holdings : List Holding) (newId : Nat) (now : Nat) : Except CreateOrderError Order :=
  let construct : Except CreateOrderError Order :=
    match price_attr with
    | none => .error .internalError
    | some price =>
      .ok
        { id := newId
          investor_wallet := investor_wallet
          note_id := note_id
          amount := amount
          side := if side = "buy" then .buy else .sell
          price := price
          status := .pending
          created_at := now
          filled_at := none }
  if side ≠ "buy" ∧ side ≠ "sell" then .error .validationError
  else
    match notes.find? (fun n => n.id = note_id) with
    | none => .error .noteNotFound
    | some note =>
      let wallet := wallets.find? (fun w => w.wallet_address = investor_wallet)
      if side = "buy" then
        match wallet with
        | none => .error .forbidden
        | some w =>
          if ¬w.is_verified then .error .forbidden
          else if pyTruthy w.investor_tier ∧ pyTruthy w.jurisdiction
              ∧ ¬validate_investment_eligibility w.investor_tier w.jurisdiction then
            .error .forbidden
          else if note.offering_status = .offeringOpen then
            if amount < note.min_subscription_amount then .error .validationError
            else if note.min_subscription_amount = 0 then .error .internalError
            else if Int.emod amount note.min_subscription_amount ≠ 0 then .error .validationError
            else construct
          else construct
      else
        if walletHoldingsTotal investor_wallet note_id holdings < amount then
          .error .validationError
        else construct

/-- Model of the `create_order` route (market.py lines 176-341) for a
request with the wallet header present.  After lower-casing the header,
the route evaluates `if order_data.side not in ['buy', 'sell']` at line
216, OUTSIDE the `try` block: the attribute lookup of `side` on the
`OrderCreate` model fails (`orderCreateSide` is `none` for every
request), the AttributeError escapes the handler, and the request fails
with an HTTP 500 before any validation runs or any database state is
touched.  Every request therefore yields `attributeError` and no order
is ever created; the logic written below that line (`createOrderChecks`)
is unreachable.  (The deprecated `/invest` alias fails the same way: its
`hasattr` test is False and the assignment `order_data.side = 'buy'` to
an undeclared pydantic field raises.) -/
def create_order (req : OrderCreate) (investor_wallet : String) (notes : List Note)
    (wallets : List Wallet) (holdings : List Holding) (newId : Nat) (now : Nat) :
    Except CreateOrderError Order :=
  match orderCreateSide req with
  | none => .error .attributeError
  | some side =>
    createOrderChecks investor_wallet side req.note_id req.amount (orderCreatePrice req)
      notes wallets holdings newId now

/-! ### Order matching (match_orders, app/routes/market.py lines 627-799) -/

/-- Run-local cumulative traded quantity against a sell order id:
`sum(t.quantity for t in executed_trades if t.sell_order_id == id)`. -/
def sumSellQ (ts : List Trade) (sid : Nat) : Int :=
  ((ts.filter (fun t => t.sell_order_id = sid)).map (·.quantity)).sum

/-- Cumulative traded quantity against a buy order id. -/
def sumBuyQ (ts : List Trade) (bid : Nat) : Int :=
  ((ts.filter (fun t => t.buy_order_id = bid)).map (·.quantity)).sum

/-- The seller-side FIFO decrement loop: walk the lots of `(w, nid)` in
list (= `acquired_at` ascending) order, skip non-positive lots, decrement
each by at most the remaining quantity, stop once the remainder is
exhausted. -/
def decrementFIFO (w : String) (nid : Nat) : Int → List Holding → List Holding
  | _, [] => []
  | rem, h :: t =>
    if rem ≤ 0 then h :: t
    else if h.wallet_address = w ∧ h.note_id = nid ∧ 0 < h.quantity_held then
      let dec := min rem h.quantity_held
      { h with quantity_held := h.quantity_held - dec } :: decrementFIFO w nid (rem - dec) t
    else h :: decrementFIFO w nid rem t

/-- Add `q` to the LAST lot of `(w, nid)` in the list (the source selects
`ORDER BY acquired_at DESC LIMIT 1`); `none` when the wallet has no lot
for the note. -/
def incLastAux (w : String) (nid : Nat) (q : Int) : List Holding → Option (List Holding)
  | [] => none
  | h :: t =>
    match incLastAux w nid q t with
    | some t2 => some (h :: t2)
    | none =>
      if h.wallet_address = w ∧ h.note_id = nid then
        some ({ h with quantity_held := h.quantity_held + q } :: t)
      else none

/-- The buyer-side increment: add the trade quantity to the most recently
acquired lot of the buyer for the note, or create a new lot at the trade
price when none exists. -/
def incrementBuyer (w : String) (nid : Nat) (q price : Int) (ts : Nat) (hs : List Holding) :
    List Holding :=
  match incLastAux w nid q hs with
  | some hs2 => hs2
  | none =>
    hs ++ [{ wallet_address := w, note_id := nid, quantity_held := q,
             acquisition_price := price, acquired_at := ts }]

/-- The holdings mutation one trade performs during a matching run:
decrement the seller FIFO by the trade quantity, then increment the
buyer. -/
def applyTrade (hs : List Holding) (t : Trade) : List Holding :=
  incrementBuyer t.buyer_wallet t.note_id t.quantity t.price t.timestamp
    (decrementFIFO t.seller_wallet t.note_id t.quantity hs)

/-- The candidate test of the matching loop: both limit prices present
and `buy.price >= sell.price`, or either side is a market order. -/
def priceCompat (b s : Order) : Bool :=
  match b.price, s.price with
  | some bp, some sp => sp ≤ bp
  | none, _ => true
  | some _, none => true

/-- Comparison key of `matching_sells.sort(key=(price or 0, created_at))`:
lexicographic on (price with `None` as 0, creation time). -/
def sellKeyLe (a b : Order) : Bool :=
  let pa := a.price.getD 0
  let pb := b.price.getD 0
  if pa = pb then a.created_at ≤ b.created_at else pa ≤ pb

def createdLe (a b : Order) : Bool := a.created_at ≤ b.created_at

/-- Insert `x` after every element `y` with `le y x`: the insertion step
of a stable ascending sort. -/
def insertLe (le : Order → Order → Bool) (x : Order) : List Order → List Order
  | [] => [x]
  | y :: t => if le y x then y :: insertLe le x t else x :: y :: t

/-- Stable ascending insertion sort, the semantics of Python `sorted` /
`ORDER BY`: equal keys keep their original relative order. -/
def sortByLe (le : Order → Order → Bool) (l : List Order) : List Order :=
  l.foldl (fun acc x => insertLe le x acc) []

/-- The trade price rule of the matching loop: the sell limit price when
present, otherwise the buy limit price when present, otherwise the fixed
fallback par price of 10000 minor units. -/
def tradePrice (b s : Order) : Int :=
  match s.price with
  | some sp => sp
  | none =>
    match b.price with
    | some bp => bp
    | none => 10000

/-- The trade record emitted for one match. -/
def mkTrade (nid ts : Nat) (b s : Order) (q : Int) : Trade :=
  { buyer_wallet := b.investor_wallet
    seller_wallet := s.investor_wallet
    note_id := nid
    quantity := q
    price := tradePrice b s
    buy_order_id := b.id
    sell_order_id := s.id
    timestamp := ts }

/-- Sum of `quantity_held` over every lot of one note, across all
wallets. -/
def totalNote (nid : Nat) (hs : List Holding) : Int :=
  ((hs.filter (fun h => h.note_id = nid)).map (·.quantity_held)).sum

/-- State threaded through one matching run: the current sell orders
(statuses update in place), the processed buy orders, the trades of this
run in emission order, and the holdings. -/
structure MatchState where
  sells : List Order
  buysDone : List Order
  newTrades : List Trade
  holdings : List Holding
  deriving DecidableEq, Repr

/-- The inner loop of `match_orders` for one buy order over its sorted
candidate sells, carrying `remaining_buy_amount`.  The fill check for the
sell order reproduces source line 790 exactly: it sums the executed
trades (which at that point already include the trade just appended) and
then adds `trade_quantity` once more. -/
def processSells (nid : Nat) (ts : Nat) (b : Order) :
    List Order → Int → MatchState → Order × MatchState
  | [], _, st => (b, st)
  | s :: rest, rem, st =>
    if rem ≤ 0 then (b, st)
    else
      let sellRem := s.amount - sumSellQ st.newTrades s.id
      if sellRem ≤ 0 then processSells nid ts b rest rem st
      else
        let q := min rem sellRem
        let tr : Trade := mkTrade nid ts b s q
        let trades2 := st.newTrades ++ [tr]
        let holdings2 := applyTrade st.holdings tr
        let rem2 := rem - q
        let b2 := if rem2 ≤ 0 then { b with status := .filled, filled_at := some ts } else b
        let sellFilled := sumSellQ trades2 s.id + q
        let s2 := if s.amount ≤ sellFilled then { s with status := .filled, filled_at := some ts }
                  else s
        let sells2 := st.sells.map (fun x => if x.id = s.id then s2 else x)
        processSells nid ts b2 rest rem2
          { sells := sells2, buysDone := st.buysDone, newTrades := trades2, holdings := holdings2 }

/-- The outer loop of `match_orders` over the buy orders in arrival
order: build the candidate sells from the current sell statuses, sort
them price-then-time, and run the inner loop. -/
def processBuys (nid : Nat) (ts : Nat) : List Order → MatchState → MatchState
  | [], st => st
  | b :: rest, st =>
    if b.status ≠ .pending then
      processBuys nid ts rest { st with buysDone := st.buysDone ++ [b] }
    else
      let matching := st.sells.filter (fun s => s.status = .pending ∧ priceCompat b s)
      let sorted := sortByLe sellKeyLe matching
      let r := processSells nid ts b sorted b.amount st
      processBuys nid ts rest { r.2 with buysDone := r.2.buysDone ++ [r.1] }

structure MatchResult where
  buys : List Order
  sells : List Order
  trades : List Trade
  holdings : List Holding
  deriving DecidableEq, Repr

/-- The pending orders of a note in `created_at` ascending order: the
`SELECT ... WHERE status = pending ORDER BY created_at` of the run. -/
def pendingOf (nid : Nat) (orders : List Order) : List Order :=
  sortByLe createdLe (orders.filter (fun o => o.note_id = nid ∧ o.status = .pending))

def pendingBuysOf (nid : Nat) (orders : List Order) : List Order :=
  (pendingOf nid orders).filter (fun o => o.side = .buy)

def pendingSellsOf (nid : Nat) (orders : List Order) : List Order :=
  (pendingOf nid orders).filter (fun o => o.side = .sell)

/-- Model of `match_orders`: load the pending orders of the note in
`created_at` order, partition into buys and sells preserving order, and
run the matching loops.  The run never reads previously recorded trades:
remaining amounts are computed against this run only. -/
def match_orders (nid : Nat) (orders : List Order) (holdings : List Holding) (ts : Nat) :
    MatchResult :=
  let st := processBuys nid ts (pendingBuysOf nid orders)
    { sells := pendingSellsOf nid orders, buysDone := [], newTrades := [], holdings := holdings }
  { buys := st.buysDone, sells := st.sells, trades := st.newTrades, holdings := st.holdings }

/-! ### Theorems -/

/-- C1: the claim states an order becomes FILLED exactly when its
cumulative traded quantity equals its amount, and stays PENDING while the
cumulative quantity is strictly smaller.  The code violates this: the
sell-side fill check of `match_orders` (line 790) sums the executed
trades, which already include the trade just appended, and then adds
`trade_quantity` once more, so a sell order can be marked FILLED after
trading only part of its amount.  Here a pending sell of 100 and a
pending buy of 50 produce one trade of quantity 50, after which the sell
order is FILLED with cumulative traded quantity 50 of 100. -/
theorem c1_partial_sell_marked_filled :
    let sell : Order := ⟨1, "s", 1, 100, .sell, none, .pending, 0, none⟩
    let buy : Order := ⟨2, "b", 1, 50, .buy, none, .pending, 1, none⟩
    let h : List Holding := [⟨"s", 1, 100, 10000, 0⟩]
    let r := match_orders 1 [sell, buy] h 7
    sumSellQ r.trades 1 = 50 ∧ sell.amount = 100 ∧
      r.sells = [{ sell with status := .filled, filled_at := some 7 }] ∧
      r.trades = [⟨"b", "s", 1, 50, 10000, 2, 1, 7⟩] := by decide

/-- C2 counterexample: settlement does NOT aggregate only the pending buy
orders.  A note of amount 100 whose only pending order is a SELL of 100
has pending-buy total 0 < 100, so the claim requires an
InsufficientSubscription failure; the code sums all pending orders
regardless of side (no side filter in the query at line 413) and the
settlement succeeds. -/
theorem c2_sell_orders_counted_counterexample :
    let note : Note := ⟨1, 100, 10, .offeringOpen⟩
    let orders : List Order := [⟨1, "s", 1, 100, .sell, none, .pending, 0, none⟩]
    ((orders.filter (fun o => o.note_id = 1 ∧ o.status = .pending ∧ o.side = .buy)).map
        (·.amount)).sum = 0 ∧
      (0 : Int) < note.amount ∧
      (settle_note note orders [] 7).isOk = true := by decide

/-- C5 counterexample: `calculate_maturity_value` does not equal the
exact rational floor formula for every positive principal.  At principal
2000000000000000000000000159 cents, 10000 bps and 1 day the default
28-significant-digit Decimal context rounds `days / 360` and the running
products, and the code returns one cent more than the exact floor
(checked digit for digit against CPython `decimal`). -/
theorem c5_decimal_context_counterexample :
    (0 : Int) < 2000000000000000000000000159 ∧ (0 : Int) ≤ 10000 ∧ (0 : Int) ≤ 1 ∧
      calculate_maturity_value 2000000000000000000000000159 10000 1 =
        .ok 2005555555555555555555555715 ∧
      exactMaturityValue 2000000000000000000000000159 10000 1 =
        2005555555555555555555555714 ∧
      (2005555555555555555555555715 : Int) ≠ 2005555555555555555555555714 := by decide

/-- Helper: the context rounding always returns a positive denominator. -/
theorem round28_d_pos (x : Dec) : 0 < (Dec.round28 x).d := by
  unfold Dec.round28
  split_ifs
  · norm_num
  · dsimp only
    split
    · exact pow_pos (by norm_num) _
    · norm_num
  · dsimp only
    split
    · exact pow_pos (by norm_num) _
    · norm_num

theorem mvRate_d_pos (bps : Int) : 0 < (mvRate bps).d := by
  unfold mvRate Dec.div
  exact round28_d_pos _

theorem mvDays_d_pos (days : Int) : 0 < (mvDays days).d := by
  unfold mvDays Dec.div
  exact round28_d_pos _

theorem mvPrincipalRate_d_pos (p bps : Int) : 0 < (mvPrincipalRate p bps).d := by
  unfold mvPrincipalRate Dec.mul
  exact round28_d_pos _

theorem mvInterest_d_pos (p bps days : Int) : 0 < (mvInterest p bps days).d := by
  unfold mvInterest Dec.mul
  exact round28_d_pos _

theorem mvSum_d_pos (p bps days : Int) : 0 < (mvSum p bps days).d := by
  unfold mvSum Dec.add
  exact round28_d_pos _

/-- C5 amended: whenever the Decimal intermediates of
`calculate_maturity_value` are exact - each hypothesis states, in
cross-multiplied integer form, that one operation introduced no context
rounding, which holds in particular whenever every intermediate value
fits in 28 significant digits - and the result fits the quantize bound,
the function returns exactly
`principal + floor(principal * rate_bps * days / 3600000)` computed by
exact rational arithmetic (`Int.fdiv` is floor division). -/
theorem c5_maturity_exact_when_representable (p bps days : Int)
    (hp : 0 < p) (hbps : 0 ≤ bps) (hdays : 0 ≤ days)
    (h1 : (mvRate bps).n * 10000 = bps * (mvRate bps).d)
    (h2 : (mvDays days).n * 360 = days * (mvDays days).d)
    (h3 : (mvPrincipalRate p bps).n * (mvRate bps).d =
      p * (mvRate bps).n * (mvPrincipalRate p bps).d)
    (h4 : (mvInterest p bps days).n * ((mvPrincipalRate p bps).d * (mvDays days).d) =
      (mvPrincipalRate p bps).n * (mvDays days).n * (mvInterest p bps days).d)
    (h5 : (mvSum p bps days).n * (mvInterest p bps days).d =
      (p * (mvInterest p bps days).d + (mvInterest p bps days).n) * (mvSum p bps days).d)
    (h6 : (mvSum p bps days).n < 10 ^ 28 * (mvSum p bps days).d) :
    calculate_maturity_value p bps days = .ok (p + Int.fdiv (p * bps * days) 3600000) := by
  have hRd := mvRate_d_pos bps
  have hDd := mvDays_d_pos days
  have hPRd := mvPrincipalRate_d_pos p bps
  have hId := mvInterest_d_pos p bps days
  have hSd := mvSum_d_pos p bps days
  have hRdQ : ((mvRate bps).d : ℚ) ≠ 0 := by exact_mod_cast hRd.ne'
  have hDdQ : ((mvDays days).d : ℚ) ≠ 0 := by exact_mod_cast hDd.ne'
  have hPRdQ : ((mvPrincipalRate p bps).d : ℚ) ≠ 0 := by exact_mod_cast hPRd.ne'
  have hIdQ : ((mvInterest p bps days).d : ℚ) ≠ 0 := by exact_mod_cast hId.ne'
  have hSdQ : ((mvSum p bps days).d : ℚ) ≠ 0 := by exact_mod_cast hSd.ne'
  have hR : ((mvRate bps).n : ℚ) / ((mvRate bps).d : ℚ) = (bps : ℚ) / 10000 := by
    rw [div_eq_div_iff hRdQ (by norm_num)]
    exact_mod_cast h1
  have hD : ((mvDays days).n : ℚ) / ((mvDays days).d : ℚ) = (days : ℚ) / 360 := by
    rw [div_eq_div_iff hDdQ (by norm_num)]
    exact_mod_cast h2
  have hPR : ((mvPrincipalRate p bps).n : ℚ) / ((mvPrincipalRate p bps).d : ℚ) =
      (p : ℚ) * ((bps : ℚ) / 10000) := by
    have e1 : ((mvPrincipalRate p bps).n : ℚ) / ((mvPrincipalRate p bps).d : ℚ) =
        ((p : ℚ) * (mvRate bps).n) / ((mvRate bps).d : ℚ) := by
      rw [div_eq_div_iff hPRdQ hRdQ]
      exact_mod_cast h3
    rw [e1, mul_div_assoc, hR]
  have hI : ((mvInterest p bps days).n : ℚ) / ((mvInterest p bps days).d : ℚ) =
      (p : ℚ) * ((bps : ℚ) / 10000) * ((days : ℚ) / 360) := by
    have e1 : ((mvInterest p bps days).n : ℚ) / ((mvInterest p bps days).d : ℚ) =
        ((mvPrincipalRate p bps).n * (mvDays days).n : ℚ) /
          ((mvPrincipalRate p bps).d * (mvDays days).d : ℚ) := by
      rw [div_eq_div_iff hIdQ (by exact_mod_cast mul_ne_zero hPRdQ hDdQ)]
      exact_mod_cast h4
    rw [e1, ← div_mul_div_comm, hPR, hD]
  have hS : ((mvSum p bps days).n : ℚ) / ((mvSum p bps days).d : ℚ) =
      (p : ℚ) + ((mvInterest p bps days).n : ℚ) / ((mvInterest p bps days).d : ℚ) := by
    have e1 : ((mvSum p bps days).n : ℚ) / ((mvSum p bps days).d : ℚ) =
        ((p : ℚ) * (mvInterest p bps days).d + (mvInterest p bps days).n) /
          ((mvInterest p bps days).d : ℚ) := by
      rw [div_eq_div_iff hSdQ hIdQ]
      exact_mod_cast h5
    rw [e1, add_div, mul_div_assoc, div_self hIdQ, mul_one]
  have hval : ((mvSum p bps days).n : ℚ) / ((mvSum p bps days).d : ℚ) =
      (p : ℚ) + ((p * bps * days : ℤ) : ℚ) / ((3600000 : ℕ) : ℚ) := by
    rw [hS, hI]
    push_cast
    field_simp
    ring
  have hXnn : (0 : ℚ) ≤ ((p * bps * days : ℤ) : ℚ) / ((3600000 : ℕ) : ℚ) := by
    apply div_nonneg
    · exact_mod_cast mul_nonneg (mul_nonneg (le_of_lt hp) hbps) hdays
    · norm_num
  have hSn_pos : 0 < (mvSum p bps days).n := by
    have hpQ : (0 : ℚ) < (p : ℚ) := by exact_mod_cast hp
    have hgt : (0 : ℚ) < ((mvSum p bps days).n : ℚ) / ((mvSum p bps days).d : ℚ) := by
      rw [hval]
      linarith
    have hSdQ2 : (0 : ℚ) < ((mvSum p bps days).d : ℚ) := by exact_mod_cast hSd
    rcases div_pos_iff.mp hgt with ⟨ha, -⟩ | ⟨-, hb⟩
    · exact_mod_cast ha
    · exact absurd hSdQ2 (not_lt.mpr (le_of_lt hb))
  have hfloor1 : ⌊((mvSum p bps days).n : ℚ) / ((mvSum p bps days).d : ℚ)⌋ =
      (mvSum p bps days).n / (mvSum p bps days).d := by
    have h7 : ((mvSum p bps days).d.toNat : ℤ) = (mvSum p bps days).d :=
      Int.toNat_of_nonneg (le_of_lt hSd)
    rw [← h7]
    push_cast
    exact Rat.floor_intCast_div_natCast _ _
  have hfloor2 : ⌊((mvSum p bps days).n : ℚ) / ((mvSum p bps days).d : ℚ)⌋ =
      p + (p * bps * days) / 3600000 := by
    rw [hval, add_comm, Int.floor_add_int, Rat.floor_intCast_div_natCast]
    push_cast
    omega
  have htdiv : Int.tdiv (mvSum p bps days).n (mvSum p bps days).d =
      p + Int.fdiv (p * bps * days) 3600000 := by
    rw [Int.tdiv_eq_ediv (le_of_lt hSn_pos) (le_of_lt hSd),
      Int.fdiv_eq_ediv _ (by norm_num), ← hfloor2, hfloor1]
  have hnn : 0 ≤ Int.tdiv (mvSum p bps days).n (mvSum p bps days).d :=
    Int.tdiv_nonneg (le_of_lt hSn_pos) (le_of_lt hSd)
  have hlt : Int.tdiv (mvSum p bps days).n (mvSum p bps days).d < 10 ^ 28 := by
    rw [Int.tdiv_eq_ediv (le_of_lt hSn_pos) (le_of_lt hSd)]
    exact Int.ediv_lt_iff_lt_mul hSd |>.mpr (by omega)
  have hbound : (Int.tdiv (mvSum p bps days).n (mvSum p bps days).d).natAbs < 10 ^ 28 := by
    omega
  unfold calculate_maturity_value
  rw [if_neg (not_le.mpr hp), if_neg (not_lt.mpr hbps), if_neg (not_lt.mpr hdays)]
  simp only [quantizeDown]
  rw [if_pos hbound, htdiv]

/-- C5 amended witness: the example of the claim,
`calculate_maturity_value 100000 500 90 = 101250`, through the amended
theorem: every intermediate is exact there. -/
theorem c5_maturity_exact_witness :
    calculate_maturity_value 100000 500 90 =
        .ok (100000 + Int.fdiv (100000 * 500 * 90) 3600000)
      ∧ 100000 + Int.fdiv (100000 * 500 * 90) 3600000 = 101250 :=
  ⟨c5_maturity_exact_when_representable 100000 500 90 (by decide) (by decide) (by decide)
      (by decide) (by decide) (by decide) (by decide) (by decide) (by decide),
    by decide⟩

/-- C6 counterexample: `calculate_apy 100000 101250 90` returns 5.07, not
the 5.14 the claim states.  The exact value of the formula of the claim,
`((101250/100000) - 1) * (365/90) * 100`, is `365/72 = 5.0694...`, whose
2-decimal rounding is 5.07. -/
theorem c6_apy_is_5_07_not_5_14 :
    calculate_apy 100000 101250 90 = ⟨507, 100⟩ ∧
      ((101250 : ℚ) / 100000 - 1) * (365 / 90) * 100 = 365 / 72 ∧
      Dec.roundHalfEvenFrac (365 * 100) 72 = 507 ∧
      Dec.toRat ⟨507, 100⟩ ≠ (514 : ℚ) / 100 := by
  refine ⟨by decide, by norm_num, by decide, ?_⟩
  unfold Dec.toRat
  norm_num

/-- C6 amended: for principal 100000, maturity value 101250 and 90 days
the APY is 5.07 percent (the stated formula rounded to 2 decimals). -/
theorem c6_apy_value :
    calculate_apy 100000 101250 90 = ⟨507, 100⟩ ∧
      Dec.toRat (calculate_apy 100000 101250 90) = 507 / 100 := by
  refine ⟨by decide, ?_⟩
  rw [show calculate_apy 100000 101250 90 = ⟨507, 100⟩ from by decide]
  unfold Dec.toRat
  norm_num

/-- Helper: truncating and floor division agree on nonnegative operands. -/
theorem tdiv_eq_fdiv_of_nonneg {a b : Int} (ha : 0 ≤ a) (hb : 0 ≤ b) :
    Int.tdiv a b = Int.fdiv a b := by
  rw [Int.tdiv_eq_ediv ha hb, Int.fdiv_eq_ediv _ hb]

/-- Helper: the holdings total of a wallet is nonnegative when every lot
is. -/
theorem walletHoldingsTotal_nonneg (w : String) (nid : Nat) (hs : List Holding)
    (h : ∀ x ∈ hs, 0 ≤ x.quantity_held) : 0 ≤ walletHoldingsTotal w nid hs := by
  apply List.sum_nonneg
  intro a ha
  obtain ⟨x, hx, rfl⟩ := List.mem_map.1 ha
  exact h x (List.mem_filter.1 hx).1

/-- C2 amended: settlement of an existing, not-yet-settled note fails
with InsufficientSubscription (mutating nothing, which the `Except`
result makes structural) exactly when the sum of the amounts of ALL
pending orders for the note, of either side, is strictly below the note
amount; the source applies no side filter when aggregating. -/
theorem c2_settle_insufficient_iff (note : Note) (orders : List Order)
    (holdings : List Holding) (now : Nat) (hs : note.offering_status ≠ .settled) :
    settle_note note orders holdings now = .error .insufficientSubscription ↔
      ((orders.filter (fun o => o.note_id = note.id ∧ o.status = .pending)).map
        (·.amount)).sum < note.amount := by
  unfold settle_note
  rw [if_neg hs]
  by_cases h2 :
      ((orders.filter (fun o => o.note_id = note.id ∧ o.status = .pending)).map
        (·.amount)).sum < note.amount
  · simp [h2]
  · simp [h2]

/-- C2 witness: a note of amount 100 with no orders at all is rejected
with InsufficientSubscription. -/
theorem c2_settle_insufficient_iff_witness :
    settle_note ⟨1, 100, 10, .offeringOpen⟩ [] [] 7 = .error .insufficientSubscription :=
  (c2_settle_insufficient_iff ⟨1, 100, 10, .offeringOpen⟩ [] [] 7 (by decide)).mpr (by decide)

/-- C3: settling an already SETTLED note fails with the Conflict
response; settling a not-yet-settled note whose pending total reaches the
note amount succeeds and (a) marks the note SETTLED, (b) appends to the
holdings exactly one new lot per pending order, carrying the full order
amount at the par acquisition price of 10000 minor units, and (c) sets
every pending order of the note to FILLED with `filled_at` equal to the
settlement time, leaving all other orders unchanged. -/
theorem c3_settle_fills_all_pending (note : Note) (orders : List Order)
    (holdings : List Holding) (now : Nat) :
    (note.offering_status = .settled →
      settle_note note orders holdings now = .error .alreadySettled)
    ∧ (note.offering_status ≠ .settled →
        note.amount ≤
          ((orders.filter (fun o => o.note_id = note.id ∧ o.status = .pending)).map
            (·.amount)).sum →
        ∃ r, settle_note note orders holdings now = .ok r
          ∧ r.note.offering_status = .settled
          ∧ r.holdings = holdings ++
              (orders.filter (fun o => o.note_id = note.id ∧ o.status = .pending)).map
                (mkSettleHolding note.id now)
          ∧ (∀ o : Order, (mkSettleHolding note.id now o).quantity_held = o.amount
              ∧ (mkSettleHolding note.id now o).acquisition_price = 10000)
          ∧ r.orders = orders.map (settleFill now note.id)
          ∧ (∀ o : Order, o.note_id = note.id → o.status = .pending →
              settleFill now note.id o = { o with status := .filled, filled_at := some now })
          ∧ (∀ o : Order, ¬(o.note_id = note.id ∧ o.status = .pending) →
              settleFill now note.id o = o)) := by
  constructor
  · intro h
    unfold settle_note
    rw [if_pos h]
  · intro h hle
    unfold settle_note
    rw [if_neg h, if_neg (not_lt.mpr hle)]
    refine ⟨_, rfl, rfl, rfl, fun o => ⟨rfl, rfl⟩, rfl, fun o h1 h2 => ?_, fun o hno => ?_⟩
    · unfold settleFill
      rw [if_pos ⟨h1, h2⟩]
    · unfold settleFill
      rw [if_neg hno]

/-- C3 witness: a fully subscribed open note settles; the result marks
the note SETTLED, creates exactly one lot of the full order amount at
price 10000, and fills the pending buy order at the settlement time. -/
theorem c3_settle_fills_all_pending_witness :
    ∃ r, settle_note ⟨1, 100, 10, .offeringOpen⟩
        [⟨1, "b", 1, 100, .buy, none, .pending, 0, none⟩] [] 7 = .ok r
      ∧ r.note.offering_status = .settled
      ∧ r.holdings = [⟨"b", 1, 100, 10000, 7⟩]
      ∧ r.orders = [⟨1, "b", 1, 100, .buy, none, .filled, 0, some 7⟩] := by
  obtain ⟨r, h1, h2, h3, -, h5, -, -⟩ :=
    (c3_settle_fills_all_pending ⟨1, 100, 10, .offeringOpen⟩
      [⟨1, "b", 1, 100, .buy, none, .pending, 0, none⟩] [] 7).2 (by decide) (by decide)
  refine ⟨r, h1, h2, ?_, ?_⟩
  · rw [h3]
    decide
  · rw [h5]
    decide

/-- Helper: the FIFO decrement never drives a lot negative. -/
theorem decrementFIFO_nonneg (w : String) (nid : Nat) (rem : Int) (hs : List Holding)
    (h : ∀ x ∈ hs, 0 ≤ x.quantity_held) :
    ∀ x ∈ decrementFIFO w nid rem hs, 0 ≤ x.quantity_held := by
  induction hs generalizing rem with
  | nil => simp [decrementFIFO]
  | cons a t ih =>
    have ha := h a (by simp)
    have ht : ∀ x ∈ t, 0 ≤ x.quantity_held := fun x hx => h x (by simp [hx])
    simp only [decrementFIFO]
    split_ifs with h1 h2
    · exact h
    · intro x hx
      rcases List.mem_cons.1 hx with rfl | hx2
      · simp only
        omega
      · exact ih _ ht x hx2
    · intro x hx
      rcases List.mem_cons.1 hx with rfl | hx2
      · exact ha
      · exact ih _ ht x hx2

/-- Helper: incrementing the last lot of a buyer keeps every lot
nonnegative when the added quantity is nonnegative. -/
theorem incLastAux_nonneg (w : String) (nid : Nat) (q : Int) (hq : 0 ≤ q) :
    ∀ (hs hs2 : List Holding), (∀ x ∈ hs, 0 ≤ x.quantity_held) →
      incLastAux w nid q hs = some hs2 → ∀ x ∈ hs2, 0 ≤ x.quantity_held := by
  intro hs
  induction hs with
  | nil =>
    intro hs2 h heq
    simp [incLastAux] at heq
  | cons a t ih =>
    intro hs2 h heq
    have ha := h a (by simp)
    have ht : ∀ x ∈ t, 0 ≤ x.quantity_held := fun x hx => h x (by simp [hx])
    simp only [incLastAux] at heq
    cases hrec : incLastAux w nid q t with
    | some t2 =>
      rw [hrec] at heq
      have heq2 : a :: t2 = hs2 := by injection heq
      subst heq2
      intro x hx
      rcases List.mem_cons.1 hx with rfl | hx2
      · exact ha
      · exact ih t2 ht hrec x hx2
    | none =>
      rw [hrec] at heq
      by_cases hm : a.wallet_address = w ∧ a.note_id = nid
      · rw [if_pos hm] at heq
        have heq2 : { a with quantity_held := a.quantity_held + q } :: t = hs2 := by
          injection heq
        subst heq2
        intro x hx
        rcases List.mem_cons.1 hx with rfl | hx2
        · simp only
          omega
        · exact ht x hx2
      · rw [if_neg hm] at heq
        exact absurd heq (by simp)

/-- Helper: the buyer-side increment keeps every lot nonnegative. -/
theorem incrementBuyer_nonneg (w : String) (nid : Nat) (q p : Int) (ts : Nat)
    (hs : List Holding) (hq : 0 ≤ q) (h : ∀ x ∈ hs, 0 ≤ x.quantity_held) :
    ∀ x ∈ incrementBuyer w nid q p ts hs, 0 ≤ x.quantity_held := by
  unfold incrementBuyer
  cases hrec : incLastAux w nid q hs with
  | some hs2 => exact incLastAux_nonneg w nid q hq hs hs2 h hrec
  | none =>
    intro x hx
    rcases List.mem_append.1 hx with h1 | h2
    · exact h x h1
    · simp only [List.mem_singleton] at h2
      subst h2
      simpa using hq

/-- Helper: the holdings mutation of one trade keeps every lot
nonnegative when the trade quantity is nonnegative. -/
theorem applyTrade_nonneg (hs : List Holding) (t : Trade)
    (h : ∀ x ∈ hs, 0 ≤ x.quantity_held) (hq : 0 ≤ t.quantity) :
    ∀ x ∈ applyTrade hs t, 0 ≤ x.quantity_held := by
  unfold applyTrade
  exact incrementBuyer_nonneg _ _ _ _ _ _ hq
    (decrementFIFO_nonneg _ _ _ _ h)

/-- Helper: the inner matching loop keeps every lot nonnegative. -/
theorem processSells_holdings_nonneg (nid ts : Nat) (l : List Order) :
    ∀ (b : Order) (rem : Int) (st : MatchState),
      (∀ x ∈ st.holdings, 0 ≤ x.quantity_held) →
      ∀ x ∈ (processSells nid ts b l rem st).2.holdings, 0 ≤ x.quantity_held := by
  induction l with
  | nil =>
    intro b rem st h
    simpa [processSells] using h
  | cons s rest ih =>
    intro b rem st h
    simp only [processSells]
    split_ifs with h1 h2 <;>
      first
        | exact h
        | exact ih _ _ _ h
        | exact ih _ _ _ (applyTrade_nonneg _ _ h (by simp only [mkTrade]; omega))

/-- Helper: the outer matching loop keeps every lot nonnegative. -/
theorem processBuys_holdings_nonneg (nid ts : Nat) (l : List Order) :
    ∀ (st : MatchState),
      (∀ x ∈ st.holdings, 0 ≤ x.quantity_held) →
      ∀ x ∈ (processBuys nid ts l st).holdings, 0 ≤ x.quantity_held := by
  induction l with
  | nil =>
    intro st h
    simpa [processBuys] using h
  | cons b rest ih =>
    intro st h
    simp only [processBuys]
    split_ifs with h1
    · exact ih _ h
    · exact ih _ (processSells_holdings_nonneg nid ts _ _ _ _ h)

/-- C4: both mutating operations preserve the invariant that every
holding lot is nonnegative: a matching run maps a state with nonnegative
lots to a state with nonnegative lots (and, third conjunct, each
individual trade application inside the run already does, so no lot is
negative at any intermediate point either), and a successful settlement
does the same as long as the pending order amounts are nonnegative, as
the data model requires of orders. -/
theorem c4_no_negative_lots :
    (∀ (nid : Nat) (orders : List Order) (hs : List Holding) (ts : Nat),
      (∀ x ∈ hs, 0 ≤ x.quantity_held) →
      ∀ x ∈ (match_orders nid orders hs ts).holdings, 0 ≤ x.quantity_held)
    ∧ (∀ (note : Note) (orders : List Order) (hs : List Holding) (now : Nat) (r : SettleResult),
      (∀ x ∈ hs, 0 ≤ x.quantity_held) → (∀ o ∈ orders, 0 ≤ o.amount) →
      settle_note note orders hs now = .ok r →
      ∀ x ∈ r.holdings, 0 ≤ x.quantity_held)
    ∧ (∀ (hs : List Holding) (t : Trade),
      (∀ x ∈ hs, 0 ≤ x.quantity_held) → 0 ≤ t.quantity →
      ∀ x ∈ applyTrade hs t, 0 ≤ x.quantity_held) := by
  refine ⟨?_, ?_, fun hs t h hq => applyTrade_nonneg hs t h hq⟩
  · intro nid orders hs ts h
    exact processBuys_holdings_nonneg nid ts _ _ h
  · intro note orders hs now r h ho heq
    unfold settle_note at heq
    split at heq
    · cases heq
    · simp only [] at heq
      split at heq
      · cases heq
      · cases heq
        intro x hx
        rcases List.mem_append.1 hx with hx1 | hx2
        · exact h x hx1
        · obtain ⟨o, hom, rfl⟩ := List.mem_map.1 hx2
          simpa [mkSettleHolding] using ho o (List.mem_filter.1 hom).1

/-- C4 witness: the preservation facts instantiated on a concrete run in
which a seller with a 100-unit lot sells 50. -/
theorem c4_no_negative_lots_witness :
    (∀ x ∈ (match_orders 1 [⟨1, "s", 1, 100, .sell, none, .pending, 0, none⟩,
        ⟨2, "b", 1, 50, .buy, none, .pending, 1, none⟩] [⟨"s", 1, 100, 10000, 0⟩] 7).holdings,
      0 ≤ x.quantity_held)
    ∧ (∀ x ∈ applyTrade [⟨"s", 1, 30, 10000, 0⟩] ⟨"b", "s", 1, 50, 10000, 2, 1, 7⟩,
      0 ≤ x.quantity_held) :=
  ⟨c4_no_negative_lots.1 1 _ _ 7 (by decide),
    c4_no_negative_lots.2.2 _ _ (by decide) (by decide)⟩

/-- Helper: insertion keeps membership. -/
theorem mem_insertLe {le : Order → Order → Bool} {x a : Order} {l : List Order}
    (h : x ∈ insertLe le a l) : x = a ∨ x ∈ l := by
  induction l with
  | nil => simpa [insertLe] using h
  | cons y t ih =>
    simp only [insertLe] at h
    split_ifs at h with hc
    · rcases List.mem_cons.1 h with rfl | h2
      · exact Or.inr (List.mem_cons_self _ _)
      · rcases ih h2 with h3 | h3
        · exact Or.inl h3
        · exact Or.inr (List.mem_cons_of_mem _ h3)
    · rcases List.mem_cons.1 h with rfl | h2
      · exact Or.inl rfl
      · exact Or.inr h2

/-- Helper: the stable sort produces a sublist permutation; we only need
that members of the output are members of the input. -/
theorem mem_sortByLe {le : Order → Order → Bool} {x : Order} {l : List Order}
    (h : x ∈ sortByLe le l) : x ∈ l := by
  suffices hgen : ∀ (l acc : List Order), x ∈ List.foldl (fun acc y => insertLe le y acc) acc l →
      x ∈ acc ∨ x ∈ l by
    rcases hgen l [] h with h2 | h2
    · cases h2
    · exact h2
  intro l
  induction l with
  | nil => intro acc h2; exact Or.inl h2
  | cons a t ih =>
    intro acc h2
    rcases ih (insertLe le a acc) h2 with h3 | h3
    · rcases mem_insertLe h3 with rfl | h4
      · exact Or.inr (List.mem_cons_self _ _)
      · exact Or.inl h4
    · exact Or.inr (List.mem_cons_of_mem _ h3)

/-- Helper: every trade the inner loop appends is `mkTrade` of the buy
order, a candidate sell from the iterated list, and a positive quantity;
any property `Q` of such trades therefore carries over to the whole trade
list. -/
theorem processSells_trades_pred (nid ts : Nat) (Q : Trade → Prop) (l : List Order) :
    ∀ (b : Order) (rem : Int) (st : MatchState),
      (∀ t ∈ st.newTrades, Q t) →
      (∀ s ∈ l, ∀ q : Int, 0 < q → Q (mkTrade nid ts b s q)) →
      ∀ t ∈ (processSells nid ts b l rem st).2.newTrades, Q t := by
  induction l with
  | nil =>
    intro b rem st hst hnew
    simpa [processSells] using hst
  | cons s rest ih =>
    intro b rem st hst hnew
    simp only [processSells]
    split_ifs with h1 h2 h3 h4 <;>
      first
        | exact hst
        | exact ih _ _ _ hst fun s' hs' q hq => hnew s' (List.mem_cons_of_mem _ hs') q hq
        | exact ih _ _ _
            (fun t ht => by
              rcases List.mem_append.1 ht with hmem | hmem
              · exact hst t hmem
              · rw [List.mem_singleton] at hmem
                subst hmem
                exact hnew s (List.mem_cons_self _ _) _ (by omega))
            (fun s' hs' q hq => hnew s' (List.mem_cons_of_mem _ hs') q hq)

/-- Helper: a property `R` of sell orders that is stable under the
fill-status update is preserved on the sells list by the inner loop. -/
theorem processSells_sells_rel (nid ts : Nat) (R : Order → Prop)
    (hRfill : ∀ s, R s → R { s with status := OrderStatus.filled, filled_at := some ts })
    (l : List Order) :
    ∀ (b : Order) (rem : Int) (st : MatchState),
      (∀ s ∈ st.sells, R s) → (∀ s ∈ l, R s) →
      ∀ x ∈ (processSells nid ts b l rem st).2.sells, R x := by
  induction l with
  | nil =>
    intro b rem st hst hl
    simpa [processSells] using hst
  | cons s rest ih =>
    intro b rem st hst hl
    have hsR : R s := hl s (List.mem_cons_self _ _)
    have hlrest : ∀ s' ∈ rest, R s' := fun s' hs' => hl s' (List.mem_cons_of_mem _ hs')
    simp only [processSells]
    split_ifs with h1 h2 h3 h4 <;>
      first
        | exact hst
        | exact ih _ _ _ hst hlrest
        | · apply ih _ _ _ _ hlrest
            intro x hx
            obtain ⟨y, hy, rfl⟩ := List.mem_map.1 hx
            split_ifs with hid
            · first
                | exact hRfill s hsR
                | exact hsR
            · exact hst y hy

/-- Helper: predicate preservation for the outer loop.  `P` constrains
the buy orders iterated, `R` the sell orders, and every emitted trade is
`mkTrade` of such a pair with a positive quantity. -/
theorem processBuys_trades_pred (nid ts : Nat) (Q : Trade → Prop) (P R : Order → Prop)
    (hRfill : ∀ s, R s → R { s with status := OrderStatus.filled, filled_at := some ts })
    (hQ : ∀ b s, P b → R s → ∀ q : Int, 0 < q → Q (mkTrade nid ts b s q))
    (l : List Order) :
    ∀ (st : MatchState),
      (∀ b ∈ l, P b) → (∀ s ∈ st.sells, R s) → (∀ t ∈ st.newTrades, Q t) →
      ∀ t ∈ (processBuys nid ts l st).newTrades, Q t := by
  induction l with
  | nil =>
    intro st hl hsells htr
    simpa [processBuys] using htr
  | cons b rest ih =>
    intro st hl hsells htr
    have hbP : P b := hl b (List.mem_cons_self _ _)
    have hlrest : ∀ b' ∈ rest, P b' := fun b' hb' => hl b' (List.mem_cons_of_mem _ hb')
    simp only [processBuys]
    split_ifs with h1
    · exact ih _ hlrest hsells htr
    · have hsorted : ∀ s ∈ sortByLe sellKeyLe
          (st.sells.filter (fun s => s.status = .pending ∧ priceCompat b s)), R s :=
        fun s hs => hsells s (List.mem_of_mem_filter (mem_sortByLe hs))
      apply ih
      · exact hlrest
      · exact processSells_sells_rel nid ts R hRfill _ _ _ _ hsells hsorted
      · exact processSells_trades_pred nid ts Q _ _ _ _ htr
          (fun s hs q hq => hQ b s hbP (hsorted s hs) q hq)

/-- C8: every trade a matching run emits links a pending buy order and a
pending sell order of the note by id, and its price is the sell limit
price when present, otherwise the buy limit price when present, otherwise
the fixed fallback par price of 10000 minor units (both sides market
orders) - the `tradePrice` rule. -/
theorem c8_trade_price_rule (nid : Nat) (orders : List Order) (hs : List Holding) (ts : Nat) :
    ∀ t ∈ (match_orders nid orders hs ts).trades,
      ∃ b ∈ pendingBuysOf nid orders, ∃ s ∈ pendingSellsOf nid orders,
        t.buy_order_id = b.id ∧ t.sell_order_id = s.id ∧ t.price = tradePrice b s := by
  have main := processBuys_trades_pred nid ts
    (fun t => ∃ b ∈ pendingBuysOf nid orders, ∃ s ∈ pendingSellsOf nid orders,
      t.buy_order_id = b.id ∧ t.sell_order_id = s.id ∧ t.price = tradePrice b s)
    (fun b => b ∈ pendingBuysOf nid orders)
    (fun s => ∃ s0 ∈ pendingSellsOf nid orders, s.id = s0.id ∧ s.price = s0.price)
    (fun s hR => hR)
    (fun b s hb hR q hq => by
      obtain ⟨s0, hs0, hid, hprice⟩ := hR
      have hp : tradePrice b s = tradePrice b s0 := by
        unfold tradePrice
        rw [hprice]
      exact ⟨b, hb, s0, hs0, rfl, by simpa [mkTrade] using hid, by simpa [mkTrade] using hp⟩)
    (pendingBuysOf nid orders)
    { sells := pendingSellsOf nid orders, buysDone := [], newTrades := [], holdings := hs }
    (fun b hb => hb) (fun s hsm => ⟨s, hsm, rfl, rfl⟩) (by simp)
  intro t ht
  exact main t ht

/-- C8 witness: the single trade of a concrete run (market sell of 100
against market buy of 50) is priced at the 10000 fallback and links the
two pending orders. -/
theorem c8_trade_price_rule_witness :
    ∃ b ∈ pendingBuysOf 1 [⟨1, "s", 1, 100, .sell, none, .pending, 0, none⟩,
        ⟨2, "b", 1, 50, .buy, none, .pending, 1, none⟩],
      ∃ s ∈ pendingSellsOf 1 [⟨1, "s", 1, 100, .sell, none, .pending, 0, none⟩,
        ⟨2, "b", 1, 50, .buy, none, .pending, 1, none⟩],
        (⟨"b", "s", 1, 50, 10000, 2, 1, 7⟩ : Trade).buy_order_id = b.id ∧
        (⟨"b", "s", 1, 50, 10000, 2, 1, 7⟩ : Trade).sell_order_id = s.id ∧
        (⟨"b", "s", 1, 50, 10000, 2, 1, 7⟩ : Trade).price = tradePrice b s :=
  c8_trade_price_rule 1 [⟨1, "s", 1, 100, .sell, none, .pending, 0, none⟩,
      ⟨2, "b", 1, 50, .buy, none, .pending, 1, none⟩] [⟨"s", 1, 100, 10000, 0⟩] 7
    ⟨"b", "s", 1, 50, 10000, 2, 1, 7⟩ (by decide)

/-- Helper: cons unfolding of the wallet total. -/
theorem walletHoldingsTotal_cons (w : String) (nid : Nat) (x : Holding) (t : List Holding) :
    walletHoldingsTotal w nid (x :: t) =
      (if x.wallet_address = w ∧ x.note_id = nid then x.quantity_held else 0) +
        walletHoldingsTotal w nid t := by
  simp only [walletHoldingsTotal, List.filter_cons]
  by_cases h : x.wallet_address = w ∧ x.note_id = nid
  · simp [h]
  · simp [h]

/-- Helper: append unfolding of the wallet total. -/
theorem walletHoldingsTotal_append (w : String) (nid : Nat) (l1 l2 : List Holding) :
    walletHoldingsTotal w nid (l1 ++ l2) =
      walletHoldingsTotal w nid l1 + walletHoldingsTotal w nid l2 := by
  simp [walletHoldingsTotal, List.filter_append]

/-- Helper: cons unfolding of the per-note total. -/
theorem totalNote_cons (nid : Nat) (x : Holding) (t : List Holding) :
    totalNote nid (x :: t) =
      (if x.note_id = nid then x.quantity_held else 0) + totalNote nid t := by
  simp only [totalNote, List.filter_cons]
  by_cases h : x.note_id = nid
  · simp [h]
  · simp [h]

/-- Helper: append unfolding of the per-note total. -/
theorem totalNote_append (nid : Nat) (l1 l2 : List Holding) :
    totalNote nid (l1 ++ l2) = totalNote nid l1 + totalNote nid l2 := by
  simp [totalNote, List.filter_append]

/-- Helper: the FIFO decrement removes exactly
`min rem (seller total)` from the seller total, for nonnegative lots and
remainder. -/
theorem decrementFIFO_walletTotal (w : String) (nid : Nat) (rem : Int) (hs : List Holding)
    (h : ∀ x ∈ hs, 0 ≤ x.quantity_held) (hrem : 0 ≤ rem) :
    walletHoldingsTotal w nid (decrementFIFO w nid rem hs) =
      walletHoldingsTotal w nid hs - min rem (walletHoldingsTotal w nid hs) := by
  induction hs generalizing rem with
  | nil =>
    simp only [decrementFIFO]
    simp only [walletHoldingsTotal, List.filter_nil, List.map_nil, List.sum_nil]
    omega
  | cons a t ih =>
    have ha := h a (by simp)
    have ht : ∀ x ∈ t, 0 ≤ x.quantity_held := fun x hx => h x (by simp [hx])
    have hWt := walletHoldingsTotal_nonneg w nid t ht
    simp only [decrementFIFO]
    split_ifs with h1 h2
    · have h0 : rem = 0 := le_antisymm h1 hrem
      subst h0
      have := walletHoldingsTotal_nonneg w nid (a :: t) h
      omega
    · obtain ⟨hw, hn, hq⟩ := h2
      rw [walletHoldingsTotal_cons, walletHoldingsTotal_cons,
        ih (rem - min rem a.quantity_held) ht (by omega)]
      simp only [hw, hn, and_self, if_true]
      omega
    · rw [walletHoldingsTotal_cons, walletHoldingsTotal_cons, ih rem ht hrem]
      by_cases hm : a.wallet_address = w ∧ a.note_id = nid
      · have hq : a.quantity_held ≤ 0 := by
          by_contra hq2
          exact h2 ⟨hm.1, hm.2, by omega⟩
        simp only [hm, and_self, if_true]
        omega
      · simp only [hm, if_false]
        omega

/-- Helper: the FIFO decrement of one pair leaves every other
(wallet, note) total unchanged. -/
theorem decrementFIFO_walletTotal_ne (w : String) (nid : Nat) (w2 : String) (nid2 : Nat)
    (hne : ¬(w2 = w ∧ nid2 = nid)) (rem : Int) (hs : List Holding) :
    walletHoldingsTotal w2 nid2 (decrementFIFO w nid rem hs) =
      walletHoldingsTotal w2 nid2 hs := by
  induction hs generalizing rem with
  | nil => simp [decrementFIFO]
  | cons a t ih =>
    simp only [decrementFIFO]
    split_ifs with h1 h2
    · rfl
    · obtain ⟨hw, hn, hq⟩ := h2
      rw [walletHoldingsTotal_cons, walletHoldingsTotal_cons, ih]
      have hm : ¬(a.wallet_address = w2 ∧ a.note_id = nid2) := by
        rintro ⟨ha1, ha2⟩
        exact hne ⟨by rw [← ha1, hw], by rw [← ha2, hn]⟩
      simp [hm]
    · rw [walletHoldingsTotal_cons, walletHoldingsTotal_cons, ih]

/-- Helper: incrementing the last lot of a wallet adds exactly `q` to
that wallet total. -/
theorem incLastAux_walletTotal (w : String) (nid : Nat) (q : Int) :
    ∀ (hs hs2 : List Holding), incLastAux w nid q hs = some hs2 →
      walletHoldingsTotal w nid hs2 = walletHoldingsTotal w nid hs + q := by
  intro hs
  induction hs with
  | nil =>
    intro hs2 heq
    simp [incLastAux] at heq
  | cons a t ih =>
    intro hs2 heq
    simp only [incLastAux] at heq
    cases hrec : incLastAux w nid q t with
    | some t2 =>
      rw [hrec] at heq
      have heq2 : a :: t2 = hs2 := by injection heq
      subst heq2
      rw [walletHoldingsTotal_cons, walletHoldingsTotal_cons, ih t2 hrec]
      omega
    | none =>
      rw [hrec] at heq
      by_cases hm : a.wallet_address = w ∧ a.note_id = nid
      · rw [if_pos hm] at heq
        have heq2 : { a with quantity_held := a.quantity_held + q } :: t = hs2 := by
          injection heq
        subst heq2
        rw [walletHoldingsTotal_cons, walletHoldingsTotal_cons]
        simp only [hm.1, hm.2, and_self, if_true]
        omega
      · rw [if_neg hm] at heq
        exact absurd heq (by simp)

/-- Helper: incrementing the last lot of a wallet leaves every other
(wallet, note) total unchanged. -/
theorem incLastAux_walletTotal_ne (w : String) (nid : Nat) (w2 : String) (nid2 : Nat)
    (hne : ¬(w2 = w ∧ nid2 = nid)) (q : Int) :
    ∀ (hs hs2 : List Holding), incLastAux w nid q hs = some hs2 →
      walletHoldingsTotal w2 nid2 hs2 = walletHoldingsTotal w2 nid2 hs := by
  intro hs
  induction hs with
  | nil =>
    intro hs2 heq
    simp [incLastAux] at heq
  | cons a t ih =>
    intro hs2 heq
    simp only [incLastAux] at heq
    cases hrec : incLastAux w nid q t with
    | some t2 =>
      rw [hrec] at heq
      have heq2 : a :: t2 = hs2 := by injection heq
      subst heq2
      rw [walletHoldingsTotal_cons, walletHoldingsTotal_cons, ih t2 hrec]
    | none =>
      rw [hrec] at heq
      by_cases hm : a.wallet_address = w ∧ a.note_id = nid
      · rw [if_pos hm] at heq
        have heq2 : { a with quantity_held := a.quantity_held + q } :: t = hs2 := by
          injection heq
        subst heq2
        rw [walletHoldingsTotal_cons, walletHoldingsTotal_cons]
        have hm2 : ¬(a.wallet_address = w2 ∧ a.note_id = nid2) := by
          rintro ⟨ha1, ha2⟩
          exact hne ⟨by rw [← ha1, hm.1], by rw [← ha2, hm.2]⟩
        simp [hm2]
      · rw [if_neg hm] at heq
        exact absurd heq (by simp)

/-- Helper: the buyer increment adds exactly `q` to the buyer total. -/
theorem incrementBuyer_walletTotal (w : String) (nid : Nat) (q p : Int) (ts : Nat)
    (hs : List Holding) :
    walletHoldingsTotal w nid (incrementBuyer w nid q p ts hs) =
      walletHoldingsTotal w nid hs + q := by
  unfold incrementBuyer
  cases hrec : incLastAux w nid q hs with
  | some hs2 => exact incLastAux_walletTotal w nid q hs hs2 hrec
  | none =>
    rw [walletHoldingsTotal_append, walletHoldingsTotal_cons]
    simp [walletHoldingsTotal]

/-- Helper: the buyer increment leaves every other (wallet, note) total
unchanged. -/
theorem incrementBuyer_walletTotal_ne (w : String) (nid : Nat) (w2 : String) (nid2 : Nat)
    (hne : ¬(w2 = w ∧ nid2 = nid)) (q p : Int) (ts : Nat) (hs : List Holding) :
    walletHoldingsTotal w2 nid2 (incrementBuyer w nid q p ts hs) =
      walletHoldingsTotal w2 nid2 hs := by
  unfold incrementBuyer
  cases hrec : incLastAux w nid q hs with
  | some hs2 => exact incLastAux_walletTotal_ne w nid w2 nid2 hne q hs hs2 hrec
  | none =>
    rw [walletHoldingsTotal_append, walletHoldingsTotal_cons]
    have hm2 : ¬((w : String) = w2 ∧ nid = nid2) := by
      rintro ⟨ha1, ha2⟩
      exact hne ⟨ha1.symm, ha2.symm⟩
    simp [walletHoldingsTotal, hm2]

/-- Helper: the FIFO decrement removes exactly `min rem (seller total)`
from the per-note total. -/
theorem decrementFIFO_totalNote (w : String) (nid : Nat) (rem : Int) (hs : List Holding)
    (h : ∀ x ∈ hs, 0 ≤ x.quantity_held) (hrem : 0 ≤ rem) :
    totalNote nid (decrementFIFO w nid rem hs) =
      totalNote nid hs - min rem (walletHoldingsTotal w nid hs) := by
  induction hs generalizing rem with
  | nil =>
    simp only [decrementFIFO]
    simp only [totalNote, walletHoldingsTotal, List.filter_nil, List.map_nil, List.sum_nil]
    omega
  | cons a t ih =>
    have ha := h a (by simp)
    have ht : ∀ x ∈ t, 0 ≤ x.quantity_held := fun x hx => h x (by simp [hx])
    have hWt := walletHoldingsTotal_nonneg w nid t ht
    simp only [decrementFIFO]
    split_ifs with h1 h2
    · have h0 : rem = 0 := le_antisymm h1 hrem
      subst h0
      have := walletHoldingsTotal_nonneg w nid (a :: t) h
      omega
    · obtain ⟨hw, hn, hq⟩ := h2
      rw [totalNote_cons, totalNote_cons, walletHoldingsTotal_cons,
        ih (rem - min rem a.quantity_held) ht (by omega)]
      simp only [hw, hn, and_self, if_true]
      omega
    · rw [totalNote_cons, totalNote_cons, walletHoldingsTotal_cons, ih rem ht hrem]
      by_cases hm : a.wallet_address = w ∧ a.note_id = nid
      · have hq : a.quantity_held ≤ 0 := by
          by_contra hq2
          exact h2 ⟨hm.1, hm.2, by omega⟩
        simp only [hm, and_self, if_true, hm.2, if_true]
        omega
      · simp only [hm, if_false]
        by_cases hn2 : a.note_id = nid
        · simp only [hn2, if_true]
          omega
        · simp only [hn2, if_false]
          omega

/-- Helper: the buyer increment adds exactly `q` to the per-note
total. -/
theorem incrementBuyer_totalNote (w : String) (nid : Nat) (q p : Int) (ts : Nat)
    (hs : List Holding) :
    totalNote nid (incrementBuyer w nid q p ts hs) = totalNote nid hs + q := by
  unfold incrementBuyer
  cases hrec : incLastAux w nid q hs with
  | some hs2 =>
    induction hs generalizing hs2 with
    | nil => simp [incLastAux] at hrec
    | cons a t ih =>
      simp only [incLastAux] at hrec
      cases hrec2 : incLastAux w nid q t with
      | some t2 =>
        rw [hrec2] at hrec
        have heq2 : a :: t2 = hs2 := by injection hrec
        subst heq2
        rw [totalNote_cons, totalNote_cons, ih t2 hrec2]
        omega
      | none =>
        rw [hrec2] at hrec
        by_cases hm : a.wallet_address = w ∧ a.note_id = nid
        · rw [if_pos hm] at hrec
          have heq2 : { a with quantity_held := a.quantity_held + q } :: t = hs2 := by
            injection hrec
          subst heq2
          rw [totalNote_cons, totalNote_cons]
          simp only [hm.2, if_true]
          omega
        · rw [if_neg hm] at hrec
          exact absurd hrec (by simp)
  | none =>
    rw [totalNote_append, totalNote_cons]
    simp [totalNote]

/-- Helper: per-trade wallet totals (buyer and seller distinct). -/
theorem applyTrade_buyer_seller_totals (hs : List Holding) (t : Trade)
    (h : ∀ x ∈ hs, 0 ≤ x.quantity_held) (hq : 0 ≤ t.quantity)
    (hne : t.buyer_wallet ≠ t.seller_wallet) :
    walletHoldingsTotal t.buyer_wallet t.note_id (applyTrade hs t) =
        walletHoldingsTotal t.buyer_wallet t.note_id hs + t.quantity
      ∧ walletHoldingsTotal t.seller_wallet t.note_id (applyTrade hs t) =
        walletHoldingsTotal t.seller_wallet t.note_id hs -
          min t.quantity (walletHoldingsTotal t.seller_wallet t.note_id hs) := by
  unfold applyTrade
  constructor
  · rw [incrementBuyer_walletTotal,
      decrementFIFO_walletTotal_ne t.seller_wallet t.note_id t.buyer_wallet t.note_id
        (by rintro ⟨h1, -⟩; exact hne h1)]
  · rw [incrementBuyer_walletTotal_ne t.buyer_wallet t.note_id t.seller_wallet t.note_id
        (by rintro ⟨h1, -⟩; exact hne h1.symm),
      decrementFIFO_walletTotal _ _ _ _ h hq]

/-- Helper: per-trade per-note total: up by the trade quantity, down by
what the seller actually had (capped). -/
theorem applyTrade_totalNote (hs : List Holding) (t : Trade)
    (h : ∀ x ∈ hs, 0 ≤ x.quantity_held) (hq : 0 ≤ t.quantity) :
    totalNote t.note_id (applyTrade hs t) =
      totalNote t.note_id hs + t.quantity -
        min t.quantity (walletHoldingsTotal t.seller_wallet t.note_id hs) := by
  unfold applyTrade
  rw [incrementBuyer_totalNote, decrementFIFO_totalNote _ _ _ _ h hq]
  omega

/-- Helper: the inner loop applies its new trades to the holdings as a
left fold of `applyTrade`. -/
theorem processSells_holdings_foldl (nid ts : Nat) (l : List Order) :
    ∀ (b : Order) (rem : Int) (st : MatchState) (hs0 : List Holding),
      st.holdings = List.foldl applyTrade hs0 st.newTrades →
      (processSells nid ts b l rem st).2.holdings =
        List.foldl applyTrade hs0 (processSells nid ts b l rem st).2.newTrades := by
  induction l with
  | nil =>
    intro b rem st hs0 hinv
    simpa [processSells] using hinv
  | cons s rest ih =>
    intro b rem st hs0 hinv
    simp only [processSells]
    split_ifs with h1 h2 h3 h4 <;>
      first
        | exact hinv
        | exact ih _ _ _ _ hinv
        | exact ih _ _ _ _ (by rw [List.foldl_append, ← hinv]; simp)

/-- Helper: the outer loop applies its new trades to the holdings as a
left fold of `applyTrade`. -/
theorem processBuys_holdings_foldl (nid ts : Nat) (l : List Order) :
    ∀ (st : MatchState) (hs0 : List Holding),
      st.holdings = List.foldl applyTrade hs0 st.newTrades →
      (processBuys nid ts l st).holdings =
        List.foldl applyTrade hs0 (processBuys nid ts l st).newTrades := by
  induction l with
  | nil =>
    intro st hs0 hinv
    simpa [processBuys] using hinv
  | cons b rest ih =>
    intro st hs0 hinv
    simp only [processBuys]
    split_ifs with h1
    · exact ih _ _ hinv
    · exact ih _ _ (processSells_holdings_foldl nid ts _ _ _ _ _ hinv)

/-- Helper: the holdings a matching run returns are the left fold of
`applyTrade` over the trades it returns, starting from the input
holdings. -/
theorem match_orders_holdings_foldl (nid : Nat) (orders : List Order) (hs : List Holding)
    (ts : Nat) :
    (match_orders nid orders hs ts).holdings =
      List.foldl applyTrade hs (match_orders nid orders hs ts).trades :=
  processBuys_holdings_foldl nid ts (pendingBuysOf nid orders)
    { sells := pendingSellsOf nid orders, buysDone := [], newTrades := [], holdings := hs }
    hs (by simp)

/-- Helper: every trade of a run has positive quantity and carries the
note id of the run. -/
theorem match_orders_trades_pos (nid : Nat) (orders : List Order) (hs : List Holding)
    (ts : Nat) :
    ∀ t ∈ (match_orders nid orders hs ts).trades, 0 < t.quantity ∧ t.note_id = nid :=
  processBuys_trades_pred nid ts (fun t => 0 < t.quantity ∧ t.note_id = nid)
    (fun _ => True) (fun _ => True) (fun _ _ => trivial)
    (fun b s _ _ q hq => ⟨by simpa [mkTrade] using hq, by simp [mkTrade]⟩)
    (pendingBuysOf nid orders)
    { sells := pendingSellsOf nid orders, buysDone := [], newTrades := [], holdings := hs }
    (fun _ _ => trivial) (fun _ _ => trivial) (by simp)

/-- Helper: folding trades of positive quantity for the note never
decreases the per-note total and keeps lots nonnegative. -/
theorem foldl_applyTrade_mono (nid : Nat) (l : List Trade) :
    ∀ hs, (∀ x ∈ hs, 0 ≤ x.quantity_held) →
      (∀ t ∈ l, 0 < t.quantity ∧ t.note_id = nid) →
      totalNote nid hs ≤ totalNote nid (List.foldl applyTrade hs l) ∧
        (∀ x ∈ List.foldl applyTrade hs l, 0 ≤ x.quantity_held) := by
  induction l with
  | nil =>
    intro hs h _
    exact ⟨le_refl _, h⟩
  | cons t rest ih =>
    intro hs h hl
    have ht := hl t (List.mem_cons_self _ _)
    have hnn2 := applyTrade_nonneg hs t h (le_of_lt ht.1)
    obtain ⟨ihle, ihnn⟩ := ih (applyTrade hs t)
      hnn2 (fun t' h' => hl t' (List.mem_cons_of_mem _ h'))
    have hstep := applyTrade_totalNote hs t h (le_of_lt ht.1)
    rw [ht.2] at hstep
    have hW := walletHoldingsTotal_nonneg t.seller_wallet nid hs h
    simp only [List.foldl_cons]
    exact ⟨by omega, ihnn⟩

/-- C10: during a matching run each trade application increases the
buyer total for the note by exactly the trade quantity while the seller
total drops by `min(quantity, seller total)` (first conjunct, distinct
parties; second conjunct, the per-note total changes by quantity minus
the capped decrement regardless of parties); consequently a run whose
trade list contains a trade exceeding what its seller then held strictly
increases the combined `quantity_held` over all wallets for the note. -/
theorem c10_holdings_conservation :
    (∀ (hs : List Holding) (t : Trade),
      (∀ x ∈ hs, 0 ≤ x.quantity_held) → 0 ≤ t.quantity →
      t.buyer_wallet ≠ t.seller_wallet →
      walletHoldingsTotal t.buyer_wallet t.note_id (applyTrade hs t) =
          walletHoldingsTotal t.buyer_wallet t.note_id hs + t.quantity
        ∧ walletHoldingsTotal t.seller_wallet t.note_id (applyTrade hs t) =
          walletHoldingsTotal t.seller_wallet t.note_id hs -
            min t.quantity (walletHoldingsTotal t.seller_wallet t.note_id hs))
    ∧ (∀ (hs : List Holding) (t : Trade),
      (∀ x ∈ hs, 0 ≤ x.quantity_held) → 0 ≤ t.quantity →
      totalNote t.note_id (applyTrade hs t) =
        totalNote t.note_id hs + t.quantity -
          min t.quantity (walletHoldingsTotal t.seller_wallet t.note_id hs))
    ∧ (∀ (nid : Nat) (orders : List Order) (hs : List Holding) (ts : Nat)
        (l1 : List Trade) (t : Trade) (l2 : List Trade),
      (∀ x ∈ hs, 0 ≤ x.quantity_held) →
      (match_orders nid orders hs ts).trades = l1 ++ t :: l2 →
      walletHoldingsTotal t.seller_wallet nid (List.foldl applyTrade hs l1) < t.quantity →
      totalNote nid hs < totalNote nid (match_orders nid orders hs ts).holdings) := by
  refine ⟨applyTrade_buyer_seller_totals, applyTrade_totalNote, ?_⟩
  intro nid orders hs ts l1 t l2 hnn heq hshort
  have hpos := match_orders_trades_pos nid orders hs ts
  rw [heq] at hpos
  have hl1 : ∀ t' ∈ l1, 0 < t'.quantity ∧ t'.note_id = nid :=
    fun t' h' => hpos t' (List.mem_append_left _ h')
  have htt := hpos t (List.mem_append_right _ (List.mem_cons_self _ _))
  have hl2 : ∀ t' ∈ l2, 0 < t'.quantity ∧ t'.note_id = nid :=
    fun t' h' => hpos t' (List.mem_append_right _ (List.mem_cons_of_mem _ h'))
  rw [match_orders_holdings_foldl nid orders hs ts, heq, List.foldl_append]
  obtain ⟨hAle, hAnn⟩ := foldl_applyTrade_mono nid l1 hs hnn hl1
  have hstep := applyTrade_totalNote (List.foldl applyTrade hs l1) t hAnn (le_of_lt htt.1)
  rw [htt.2] at hstep
  have hAnn2 := applyTrade_nonneg (List.foldl applyTrade hs l1) t hAnn (le_of_lt htt.1)
  obtain ⟨hBle, -⟩ :=
    foldl_applyTrade_mono nid l2 (applyTrade (List.foldl applyTrade hs l1) t) hAnn2 hl2
  simp only [List.foldl_cons]
  omega

/-- C10 witness: a run in which the seller holds only 30 of the 100
units traded (market sell of 100 against market buy of 100): the buyer
total rises by the full trade quantity while the combined per-note total
strictly increases from 30 to 130. -/
theorem c10_holdings_conservation_witness :
    (walletHoldingsTotal "b" 1 (applyTrade [⟨"s", 1, 30, 10000, 0⟩] ⟨"b", "s", 1, 100, 10000, 2, 1, 7⟩) =
        walletHoldingsTotal "b" 1 [⟨"s", 1, 30, 10000, 0⟩] + 100
      ∧ walletHoldingsTotal "s" 1 (applyTrade [⟨"s", 1, 30, 10000, 0⟩] ⟨"b", "s", 1, 100, 10000, 2, 1, 7⟩) =
        walletHoldingsTotal "s" 1 [⟨"s", 1, 30, 10000, 0⟩] -
          min 100 (walletHoldingsTotal "s" 1 [⟨"s", 1, 30, 10000, 0⟩]))
    ∧ totalNote 1 [⟨"s", 1, 30, 10000, 0⟩] <
        totalNote 1 (match_orders 1 [⟨1, "s", 1, 100, .sell, none, .pending, 0, none⟩,
          ⟨2, "b", 1, 100, .buy, none, .pending, 1, none⟩] [⟨"s", 1, 30, 10000, 0⟩] 7).holdings :=
  ⟨c10_holdings_conservation.1 [⟨"s", 1, 30, 10000, 0⟩] ⟨"b", "s", 1, 100, 10000, 2, 1, 7⟩
      (by decide) (by decide) (by decide),
    c10_holdings_conservation.2.2 1 [⟨1, "s", 1, 100, .sell, none, .pending, 0, none⟩,
        ⟨2, "b", 1, 100, .buy, none, .pending, 1, none⟩] [⟨"s", 1, 30, 10000, 0⟩] 7
      [] ⟨"b", "s", 1, 100, 10000, 2, 1, 7⟩ [] (by decide) (by decide) (by decide)⟩

/-- C7: for every note with nonnegative face value and guarantee
percentages, the waterfall computes the guarantee coverage as
`min(face_value, sum of floor(face_value * coverage_percent / 100))` over
the active guarantees, and the uncovered exposure by sequential deduction
of the three layers; on the concrete example (face 100000, collateral
40000, one active guarantee at 30 percent, insurance 10000) the uncovered
exposure is 20000 and the protection percentage 80.00. -/
theorem c7_waterfall (face : Int) (cs : List CollateralAsset) (gs : List Guarantee)
    (ins : List Int) (hface : 0 ≤ face) (hpct : ∀ g ∈ gs, 0 ≤ g.coverage_percent) :
    ((calculate_protection_waterfall face cs gs ins).guarantee_coverage =
        min face
          (((gs.filter (·.active)).map (fun g => Int.fdiv (face * g.coverage_percent) 100)).sum)
      ∧ (calculate_protection_waterfall face cs gs ins).uncovered_exposure =
          max 0 (max 0 (max 0 (face - (calculate_protection_waterfall face cs gs ins).collateral_coverage)
            - (calculate_protection_waterfall face cs gs ins).guarantee_coverage)
            - (calculate_protection_waterfall face cs gs ins).insurance_pool_claim))
    ∧ (calculate_protection_waterfall 100000 [⟨40000, true⟩] [⟨30, true⟩] [10000]).uncovered_exposure
        = 20000
    ∧ Dec.toRat
        (calculate_protection_waterfall 100000 [⟨40000, true⟩] [⟨30, true⟩] [10000]).protection_percent
        = 80 := by
  refine ⟨⟨?_, ?_⟩, by decide, ?_⟩
  · have hcongr : ∀ g ∈ gs.filter (·.active),
        Int.tdiv (face * g.coverage_percent) 100 = Int.fdiv (face * g.coverage_percent) 100 := by
      intro g hg
      exact tdiv_eq_fdiv_of_nonneg
        (mul_nonneg hface (hpct g (List.mem_filter.1 hg).1)) (by norm_num)
    simp only [calculate_protection_waterfall, guaranteeCoverage, guaranteeCoverageRaw]
    rw [List.map_congr_left hcongr, min_comm]
  · rfl
  · rw [show (calculate_protection_waterfall 100000 [⟨40000, true⟩] [⟨30, true⟩]
        [10000]).protection_percent = ⟨8000, 100⟩ from by decide]
    unfold Dec.toRat
    norm_num

/-- C7 witness: the general formulas instantiated on the concrete
example. -/
theorem c7_waterfall_witness :
    (calculate_protection_waterfall 100000 [⟨40000, true⟩] [⟨30, true⟩] [10000]).guarantee_coverage =
        min 100000
          ((([⟨30, true⟩] : List Guarantee).filter (·.active)).map
            (fun g => Int.fdiv (100000 * g.coverage_percent) 100)).sum
      ∧ (calculate_protection_waterfall 100000 [⟨40000, true⟩] [⟨30, true⟩]
          [10000]).uncovered_exposure = 20000 :=
  ⟨(c7_waterfall 100000 [⟨40000, true⟩] [⟨30, true⟩] [10000] (by decide)
      (by decide)).1.1,
    (c7_waterfall 100000 [⟨40000, true⟩] [⟨30, true⟩] [10000] (by decide) (by decide)).2.1⟩

/-- C9 counterexample: an order with a non-positive amount is NOT
rejected as a Validation failure.  A request of amount -5 on an existing
open note (like every request) fails with the AttributeError-driven HTTP
500 before any validation runs: the route reads `order_data.side` at
market.py line 216, outside the `try` block, and the `OrderCreate`
schema declares no such field. -/
theorem c9_request_crashes_counterexample :
    create_order ⟨1, -5⟩ "w" [⟨1, 100, 10, .offeringOpen⟩] [] [] 5 3 =
        .error .attributeError
      ∧ (Except.error CreateOrderError.attributeError : Except CreateOrderError Order) ≠
        .error .validationError := ⟨rfl, by decide⟩

/-- C9 amended: order creation never validates the amount.  Every
request (with the wallet header present), whatever its amount, fails
with an internal error (HTTP 500) before any validation or mutation,
because the side-attribute lookup on the request model finds nothing; in
particular no request is rejected as a Validation failure and no order
is ever created. -/
theorem c9_every_request_fails_before_validation :
    ∀ (req : OrderCreate) (investor_wallet : String) (notes : List Note)
      (wallets : List Wallet) (holdings : List Holding) (newId now : Nat),
      orderCreateSide req = none
      ∧ create_order req investor_wallet notes wallets holdings newId now =
          .error .attributeError
      ∧ create_order req investor_wallet notes wallets holdings newId now ≠
          .error .validationError
      ∧ ∀ o : Order,
          create_order req investor_wallet notes wallets holdings newId now ≠ .ok o := by
  intro req investor_wallet notes wallets holdings newId now
  refine ⟨rfl, rfl, ?_, fun o => ?_⟩
  · simp [create_order, orderCreateSide]
  · simp [create_order, orderCreateSide]

end MicroPaper
